import Mathlib

/-!
Verification of the key/value conversion core of the vault-tools repository.

The Go sources are shallowly embedded: Go strings become `List Char`
(UTF-8 byte order on valid strings coincides with code-point order, so
`Char`-wise comparison models Go's byte-wise string comparison), byte
slices become `List (Fin 256)`, and fallible operations return `Option`
or carry an explicit error slot.  Each definition mirrors one Go function
and is named after it where possible.
-/

namespace VaultTools

/-- A byte, as stored in a Vault record value. -/
abbrev Byte := Fin 256

/-! ## Slash-delimited key segments

`strings.Split(s, "/")` and `strings.Join(elems, "/")` from the Go
standard library, restricted to the `"/"` separator, as used by
`keyAddPrefix`, `keyHasPrefix` and `keyStripPrefix`.  As in Go,
splitting an empty string yields `[""]`, and a split never yields an
empty list of segments. -/

/-- Go `strings.Split(s, "/")`: segments of `s` between occurrences of `'/'`. -/
def splitOnSlash : List Char → List (List Char)
  | [] => [[]]
  | c :: rest =>
    if c = '/' then [] :: splitOnSlash rest
    else
      match splitOnSlash rest with
      | [] => [[c]]
      | seg :: segs => (c :: seg) :: segs

/-- Go `strings.Join(elems, "/")`. -/
def joinSlash : List (List Char) → List Char
  | [] => []
  | [x] => x
  | x :: y :: ys => x ++ '/' :: joinSlash (y :: ys)

theorem splitOnSlash_ne_nil (s : List Char) : splitOnSlash s ≠ [] := by
  cases s with
  | nil => simp [splitOnSlash]
  | cons c rest =>
    simp only [splitOnSlash]
    split
    · simp
    · split <;> simp

theorem joinSlash_splitOnSlash (s : List Char) :
    joinSlash (splitOnSlash s) = s := by
  induction s with
  | nil => rfl
  | cons c rest ih =>
    simp only [splitOnSlash]
    split
    · rename_i hc
      subst hc
      rcases h : splitOnSlash rest with _ | ⟨seg, segs⟩
      · exact absurd h (splitOnSlash_ne_nil rest)
      · rw [h] at ih
        simpa [joinSlash] using ih
    · rcases h : splitOnSlash rest with _ | ⟨seg, segs⟩
      · exact absurd h (splitOnSlash_ne_nil rest)
      · rw [h] at ih
        cases segs with
        | nil => simpa [joinSlash] using congrArg (c :: ·) ih
        | cons z zs => simpa [joinSlash] using congrArg (c :: ·) ih

theorem slash_not_mem_splitOnSlash (s : List Char) :
    ∀ seg ∈ splitOnSlash s, '/' ∉ seg := by
  induction s with
  | nil => simp [splitOnSlash]
  | cons c rest ih =>
    intro seg hseg
    simp only [splitOnSlash] at hseg
    split at hseg
    · rcases List.mem_cons.mp hseg with h | h
      · simp [h]
      · exact ih seg h
    · rename_i hc
      rcases hsp : splitOnSlash rest with _ | ⟨sg, sgs⟩
      · exact absurd hsp (splitOnSlash_ne_nil rest)
      · rw [hsp] at hseg ih
        rcases List.mem_cons.mp hseg with h1 | h1
        · subst h1
          intro hmem
          rcases List.mem_cons.mp hmem with h2 | h2
          · exact hc h2.symm
          · exact ih sg (by simp) h2
        · exact ih seg (by simp [h1])

theorem splitOnSlash_no_slash {s : List Char} (h : '/' ∉ s) :
    splitOnSlash s = [s] := by
  induction s with
  | nil => rfl
  | cons c rest ih =>
    simp only [splitOnSlash]
    have hc : ¬ c = '/' := fun hcc => h (by simp [hcc])
    rw [if_neg hc, ih (fun hm => h (by simp [hm]))]

theorem splitOnSlash_append_slash {x : List Char} (t : List Char) (hx : '/' ∉ x) :
    splitOnSlash (x ++ '/' :: t) = x :: splitOnSlash t := by
  induction x with
  | nil => simp [splitOnSlash]
  | cons c x' ih =>
    have hc : ¬ c = '/' := fun hcc => hx (by simp [hcc])
    have hx' : '/' ∉ x' := fun hm => hx (by simp [hm])
    have h2 := ih hx'
    simp only [List.cons_append, splitOnSlash, if_neg hc, List.append_eq, h2]

theorem splitOnSlash_joinSlash (xs : List (List Char)) (hne : xs ≠ [])
    (hfree : ∀ x ∈ xs, '/' ∉ x) :
    splitOnSlash (joinSlash xs) = xs := by
  induction xs with
  | nil => exact absurd rfl hne
  | cons x ys ih =>
    cases ys with
    | nil =>
      simp only [joinSlash]
      exact splitOnSlash_no_slash (hfree x (by simp))
    | cons y ys' =>
      simp only [joinSlash]
      rw [splitOnSlash_append_slash _ (hfree x (by simp))]
      rw [ih (by simp) (fun z hz => hfree z (by simp [hz]))]

/-! ## Key prefix transform

Embeddings of `keyAddPrefix` (vault-convert-backend-filesystem-consul),
and `keyHasPrefix` / `keyStripPrefix`
(vault-convert-backend-consul-filesystem).  The Go loop
`for i := range pe { if ke[i] != pe[i] { return false } }` run under the
guard `len(ke) >= len(pe)` is embedded as the recursive segment-wise
comparison `segPrefixEq`. -/

/-- Segment-wise comparison of `pe` against the leading segments of `ke`. -/
def segPrefixEq : List (List Char) → List (List Char) → Bool
  | [], _ => true
  | _ :: _, [] => false
  | p :: ps, k :: ks => if p = k then segPrefixEq ps ks else false

/-- Go `keyAddPrefix(key, prefix)`: split both on `/`, concatenate the
segment lists, and join with `/`; the empty prefix leaves the key alone. -/
def keyAddPrefix (key pfx : List Char) : List Char :=
  if pfx = [] then key
  else joinSlash (splitOnSlash pfx ++ splitOnSlash key)

/-- Go `keyHasPrefix(key, prefix)`: segment-wise prefix test. -/
def keyHasPrefix (key pfx : List Char) : Bool :=
  let ke := splitOnSlash key
  let pe := splitOnSlash pfx
  if ke.length < pe.length then false
  else segPrefixEq pe ke

/-- Go `keyStripPrefix(key, prefix)`: drop the prefix's segments from the
key when they match segment-wise; otherwise rejoin the key's own segments. -/
def keyStripPrefix (key pfx : List Char) : List Char :=
  let ke := splitOnSlash key
  let pe := splitOnSlash pfx
  if ke.length < pe.length then joinSlash ke
  else if segPrefixEq pe ke then joinSlash (ke.drop pe.length)
  else joinSlash ke

theorem segPrefixEq_append (pe t : List (List Char)) :
    segPrefixEq pe (pe ++ t) = true := by
  induction pe with
  | nil => rfl
  | cons p ps ih => simpa [segPrefixEq] using ih

theorem keyHasPrefix_self (p : List Char) : keyHasPrefix p p = true := by
  have h := segPrefixEq_append (splitOnSlash p) []
  simp only [List.append_nil] at h
  simp [keyHasPrefix, h]

theorem keyStripPrefix_self (p : List Char) : keyStripPrefix p p = [] := by
  have h := segPrefixEq_append (splitOnSlash p) []
  simp only [List.append_nil] at h
  simp [keyStripPrefix, h, joinSlash]

theorem keyStripPrefix_keyAddPrefix (key pfx : List Char) (h : pfx ≠ []) :
    keyStripPrefix (keyAddPrefix key pfx) pfx = key := by
  have hsplit : splitOnSlash (keyAddPrefix key pfx)
      = splitOnSlash pfx ++ splitOnSlash key := by
    rw [keyAddPrefix, if_neg h]
    refine splitOnSlash_joinSlash _ ?_ ?_
    · have := splitOnSlash_ne_nil pfx
      simp [this]
    · intro x hx
      rcases List.mem_append.mp hx with hm | hm
      · exact slash_not_mem_splitOnSlash pfx x hm
      · exact slash_not_mem_splitOnSlash key x hm
  have hk : splitOnSlash key ≠ [] := splitOnSlash_ne_nil key
  rw [keyStripPrefix, hsplit]
  have hlen : ¬ (splitOnSlash pfx ++ splitOnSlash key).length
      < (splitOnSlash pfx).length := by
    simp [List.length_append]
  rw [if_neg hlen, if_pos (segPrefixEq_append _ _)]
  rw [List.drop_left, joinSlash_splitOnSlash]

/-! ## Base64, standard alphabet with padding

Embedding of the `encoding/base64` standard-library codec as used by the
converters: `base64.StdEncoding.EncodeToString` and
`base64.StdEncoding.DecodeString`.  The decoder accepts any alphabet
character in the final quantum (Go's non-strict decoder ignores spare
trailing bits), requires the input length to be a multiple of four,
allows `=` padding only at the very end, and skips `\r`/`\n` characters
anywhere in the input, as Go's decoder does. -/

/-- The 64 characters of the standard base64 alphabet. -/
def b64Alphabet : List Char :=
  "ABCDEFGHIJKLMNOPQRSTUVWXYZabcdefghijklmnopqrstuvwxyz0123456789+/".data

/-- The alphabet character for a 6-bit value. -/
def b64Char (n : Nat) : Char := b64Alphabet.getD n 'A'

/-- The 6-bit value of an alphabet character, or `none` off the alphabet. -/
def b64Index (c : Char) : Option Nat := b64Alphabet.findIdx? (· == c)

/-- Build a byte from an 8-bit arithmetic result. -/
def mkByte (n : Nat) : Byte := ⟨n % 256, Nat.mod_lt _ (by omega)⟩

/-- Go `base64.StdEncoding.EncodeToString`: three input bytes per four
output characters, with `=` padding closing a short final group. -/
def base64Encode : List Byte → List Char
  | [] => []
  | [b1] =>
    [b64Char (b1.val / 4), b64Char (b1.val % 4 * 16), '=', '=']
  | [b1, b2] =>
    [b64Char (b1.val / 4), b64Char (b1.val % 4 * 16 + b2.val / 16),
     b64Char (b2.val % 16 * 4), '=']
  | b1 :: b2 :: b3 :: rest =>
    b64Char (b1.val / 4) :: b64Char (b1.val % 4 * 16 + b2.val / 16) ::
    b64Char (b2.val % 16 * 4 + b3.val / 64) :: b64Char (b3.val % 64) ::
    base64Encode rest

/-- Decode four-character quanta; `=` padding may close the final quantum
only.  Input length must be a multiple of four. -/
def base64DecodeQuanta : List Char → Option (List Byte)
  | [] => some []
  | c1 :: c2 :: c3 :: c4 :: rest =>
    match b64Index c1, b64Index c2 with
    | some s1, some s2 =>
      if c3 = '=' then
        if c4 = '=' then
          if rest = [] then some [mkByte (s1 * 4 + s2 / 16)] else none
        else none
      else
        match b64Index c3 with
        | some s3 =>
          if c4 = '=' then
            if rest = [] then
              some [mkByte (s1 * 4 + s2 / 16), mkByte (s2 % 16 * 16 + s3 / 4)]
            else none
          else
            match b64Index c4 with
            | some s4 =>
              (base64DecodeQuanta rest).map
                (fun t => mkByte (s1 * 4 + s2 / 16) ::
                  mkByte (s2 % 16 * 16 + s3 / 4) ::
                  mkByte (s3 % 4 * 64 + s4) :: t)
            | none => none
        | none => none
    | _, _ => none
  | _ => none

/-- Go `base64.StdEncoding.DecodeString`: newline characters are ignored,
then the quanta are decoded. -/
def base64DecodeString (s : List Char) : Option (List Byte) :=
  base64DecodeQuanta (s.filter (fun c => c != '\n' && c != '\r'))

theorem b64Index_b64Char_fin :
    ∀ i : Fin 64, b64Index (b64Char i.val) = some i.val := by decide

theorem b64Index_b64Char {n : Nat} (h : n < 64) :
    b64Index (b64Char n) = some n := b64Index_b64Char_fin ⟨n, h⟩

theorem b64Char_ne_pad_fin : ∀ i : Fin 64, b64Char i.val ≠ '=' := by decide

theorem b64Char_ne_pad {n : Nat} (h : n < 64) : b64Char n ≠ '=' :=
  b64Char_ne_pad_fin ⟨n, h⟩

theorem b64Char_mem_alphabet (n : Nat) : b64Char n ∈ b64Alphabet := by
  unfold b64Char List.getD
  rcases h : b64Alphabet.get? n with _ | c
  · simp [h]
    decide
  · simpa [h] using List.get?_mem h

theorem b64Alphabet_not_newline :
    ∀ c ∈ b64Alphabet, (c != '\n' && c != '\r') = true := by decide

theorem b64Char_not_newline (n : Nat) :
    (b64Char n != '\n' && b64Char n != '\r') = true :=
  b64Alphabet_not_newline _ (b64Char_mem_alphabet n)

theorem base64DecodeQuanta_encode (v : List Byte) :
    base64DecodeQuanta (base64Encode v) = some v := by
  induction v using base64Encode.induct with
  | case1 => rfl
  | case2 b1 =>
    have hb1 := b1.isLt
    have h1 : b1.val / 4 < 64 := by omega
    have h2 : b1.val % 4 * 16 < 64 := by omega
    simp only [base64Encode, base64DecodeQuanta, b64Index_b64Char h1, b64Index_b64Char h2,
      mkByte]
    simp [Fin.ext_iff]
    omega
  | case3 b1 b2 =>
    have hb1 := b1.isLt
    have hb2 := b2.isLt
    have h1 : b1.val / 4 < 64 := by omega
    have h2 : b1.val % 4 * 16 + b2.val / 16 < 64 := by omega
    have h3 : b2.val % 16 * 4 < 64 := by omega
    simp only [base64Encode, base64DecodeQuanta, b64Index_b64Char h1, b64Index_b64Char h2,
      b64Index_b64Char h3, mkByte]
    simp [b64Char_ne_pad h3, Fin.ext_iff]
    omega
  | case4 b1 b2 b3 rest ih =>
    have hb1 := b1.isLt
    have hb2 := b2.isLt
    have hb3 := b3.isLt
    have h1 : b1.val / 4 < 64 := by omega
    have h2 : b1.val % 4 * 16 + b2.val / 16 < 64 := by omega
    have h3 : b2.val % 16 * 4 + b3.val / 64 < 64 := by omega
    have h4 : b3.val % 64 < 64 := by omega
    simp only [base64Encode, base64DecodeQuanta, b64Index_b64Char h1, b64Index_b64Char h2,
      b64Index_b64Char h3, b64Index_b64Char h4, mkByte]
    simp [b64Char_ne_pad h3, b64Char_ne_pad h4, ih, Fin.ext_iff]
    omega

theorem mem_base64Encode {v : List Byte} :
    ∀ c ∈ base64Encode v, c ∈ b64Alphabet ∨ c = '=' := by
  induction v using base64Encode.induct with
  | case1 => simp [base64Encode]
  | case2 b1 =>
    intro c hc
    simp only [base64Encode, List.mem_cons, List.not_mem_nil, or_false] at hc
    rcases hc with h | h | h | h
    · exact Or.inl (h ▸ b64Char_mem_alphabet _)
    · exact Or.inl (h ▸ b64Char_mem_alphabet _)
    · exact Or.inr h
    · exact Or.inr h
  | case3 b1 b2 =>
    intro c hc
    simp only [base64Encode, List.mem_cons, List.not_mem_nil, or_false] at hc
    rcases hc with h | h | h | h
    · exact Or.inl (h ▸ b64Char_mem_alphabet _)
    · exact Or.inl (h ▸ b64Char_mem_alphabet _)
    · exact Or.inl (h ▸ b64Char_mem_alphabet _)
    · exact Or.inr h
  | case4 b1 b2 b3 rest ih =>
    intro c hc
    simp only [base64Encode, List.mem_cons] at hc
    rcases hc with h | h | h | h | h
    · exact Or.inl (h ▸ b64Char_mem_alphabet _)
    · exact Or.inl (h ▸ b64Char_mem_alphabet _)
    · exact Or.inl (h ▸ b64Char_mem_alphabet _)
    · exact Or.inl (h ▸ b64Char_mem_alphabet _)
    · exact ih c h

theorem base64Encode_filter_newline (v : List Byte) :
    (base64Encode v).filter (fun c => c != '\n' && c != '\r') = base64Encode v := by
  rw [List.filter_eq_self]
  intro c hc
  rcases mem_base64Encode c hc with h | h
  · exact b64Alphabet_not_newline c h
  · subst h
    decide

theorem base64DecodeString_encode (v : List Byte) :
    base64DecodeString (base64Encode v) = some v := by
  rw [base64DecodeString, base64Encode_filter_newline, base64DecodeQuanta_encode]

/-! ## Records

`consul.Entry` carries a key and a base64 string; `vault.Entry`
(`physical.Entry`) carries a key and raw bytes. -/

/-- A Consul KV record as it appears in the JSON array file. -/
structure ConsulEntry where
  Key : List Char
  Value : List Char
deriving DecidableEq, Repr

/-- A Vault record: key plus raw byte value. -/
structure VaultEntry where
  Key : List Char
  Value : List Byte
deriving DecidableEq, Repr

/-- Go `convertEntry` of vault-convert-backend-filesystem-consul: add the
key prefix and base64-encode the value.  The Go function's error result
is always `nil`, so the embedding is total. -/
def fwdConvertEntry (e : VaultEntry) (keyPfx : List Char) : ConsulEntry :=
  ⟨keyAddPrefix e.Key keyPfx, base64Encode e.Value⟩

/-- The forward (tree to array) conversion loop of
vault-convert-backend-filesystem-consul `convert`: every record read from
the walker is converted and written; no record is filtered out. -/
def forwardConvert (pfx : List Char) (entries : List VaultEntry) : List ConsulEntry :=
  entries.map (fun e => fwdConvertEntry e pfx)

/-- Go `convertEntry` of vault-convert-backend-consul-filesystem:
base64-decode the value (this can fail), then strip the key prefix. -/
def revConvertEntry (e : ConsulEntry) (keyPfx : List Char) : Option VaultEntry :=
  match base64DecodeString e.Value with
  | none => none
  | some v => some ⟨keyStripPrefix e.Key keyPfx, v⟩

/-- C1: for every record and every non-empty prefix, stripping the prefix
after adding it restores the key, base64-decoding the encoding restores
the value byte-for-byte, and therefore the reverse `convertEntry` undoes
the forward `convertEntry`. -/
theorem C1_convertEntry_roundtrip (key : List Char) (value : List Byte)
    (pfx : List Char) (hpfx : pfx ≠ []) :
    keyStripPrefix (keyAddPrefix key pfx) pfx = key
    ∧ base64DecodeString (base64Encode value) = some value
    ∧ revConvertEntry (fwdConvertEntry ⟨key, value⟩ pfx) pfx = some ⟨key, value⟩ := by
  refine ⟨keyStripPrefix_keyAddPrefix key pfx hpfx, base64DecodeString_encode value, ?_⟩
  simp [revConvertEntry, fwdConvertEntry, base64DecodeString_encode,
    keyStripPrefix_keyAddPrefix key pfx hpfx]

theorem C1_convertEntry_roundtrip_witness :
    keyStripPrefix (keyAddPrefix "secret/x".data "vault".data) "vault".data = "secret/x".data
    ∧ base64DecodeString (base64Encode [(65 : Byte)]) = some [(65 : Byte)]
    ∧ revConvertEntry (fwdConvertEntry ⟨"secret/x".data, [(65 : Byte)]⟩ "vault".data)
        "vault".data = some ⟨"secret/x".data, [(65 : Byte)]⟩ :=
  C1_convertEntry_roundtrip "secret/x".data [(65 : Byte)] "vault".data (by decide)

/-- C4: `keyStripPrefix` returns the key unchanged byte-for-byte whenever
the key's leading segments do not match all of the prefix's segments
(exactly the cases where `keyHasPrefix` is false), and otherwise returns
the key's remaining segments joined by `/`. -/
theorem C4_keyStripPrefix_spec (key pfx : List Char) :
    (keyHasPrefix key pfx = false → keyStripPrefix key pfx = key)
    ∧ (keyHasPrefix key pfx = true →
        keyStripPrefix key pfx
          = joinSlash ((splitOnSlash key).drop (splitOnSlash pfx).length)) := by
  constructor
  · intro hfalse
    rw [keyHasPrefix] at hfalse
    rw [keyStripPrefix]
    by_cases hlen : (splitOnSlash key).length < (splitOnSlash pfx).length
    · rw [if_pos hlen, joinSlash_splitOnSlash]
    · rw [if_neg hlen] at hfalse ⊢
      rw [if_neg (by simp [hfalse]), joinSlash_splitOnSlash]
  · intro htrue
    rw [keyHasPrefix] at htrue
    rw [keyStripPrefix]
    by_cases hlen : (splitOnSlash key).length < (splitOnSlash pfx).length
    · rw [if_pos hlen] at htrue
      exact absurd htrue (by simp)
    · rw [if_neg hlen] at htrue ⊢
      rw [if_pos htrue]

theorem C4_keyStripPrefix_spec_witness :
    keyStripPrefix "other/x".data "vault".data = "other/x".data
    ∧ keyStripPrefix "vault/secret/x".data "vault".data
        = joinSlash ((splitOnSlash "vault/secret/x".data).drop
            (splitOnSlash "vault".data).length) :=
  ⟨(C4_keyStripPrefix_spec "other/x".data "vault".data).1 (by decide),
   (C4_keyStripPrefix_spec "vault/secret/x".data "vault".data).2 (by decide)⟩

/-! ## Reverse converter (array to tree), prefix-filtering variant

Embedding of `Converter` from vault-convert-backend-consul-filesystem:
`Convert` pulls one parsed record (JSON decoding by the standard library
is modelled as the already-parsed entry list), bumps the 1-based counter,
and `convert` filters by `keyHasPrefix`, base64-decodes, strips the
prefix, and writes one file; the loop stops at the first error. -/

/-- Go `path.Split(key)`: directory part (through the final slash
inclusive) and base part. -/
def pathSplit (key : List Char) : List Char × List Char :=
  let base := (key.reverse.takeWhile (fun c => c != '/')).reverse
  (key.take (key.length - base.length), base)

/-- The output path of `openFile(root, key)` relative to `root`:
`filepath.Join(kdir, "_"+kbase)`.  For keys made of clean slash-separated
segments, `filepath.Join`'s cleaning only collapses the separator between
the directory part's trailing slash and the base, which this
concatenation already does. -/
def openFileRelPath (key : List Char) : List Char :=
  let p := pathSplit key
  if p.1 = [] then '_' :: p.2
  else p.1 ++ '_' :: p.2

/-- The ways one entry's conversion fails in the embedded fragment. -/
inductive EntryFailure where
  | badBase64
  | emptyKey
  | emptyValue
deriving DecidableEq, Repr

/-- A converter error: the wrapped message names the 1-based ordinal of
the failing entry, as `fmt.Errorf("... entry #%d: %s", c.count, err)` does. -/
inductive ConvError where
  | entry (ordinal : Nat) (failure : EntryFailure)
deriving DecidableEq, Repr

/-- The observable outcome of a converter run: files written (in order,
as relative path and record), the final record counter, and the
first-error slot. -/
structure RevResult where
  files : List (List Char × VaultEntry)
  count : Nat
  firstErr : Option ConvError
deriving DecidableEq, Repr

/-- The `for c.Convert() {}` loop of the prefix-filtering reverse
converter, processing the already-parsed entries in array order. -/
def revRun (pfx : List Char) :
    List ConsulEntry → Nat → List (List Char × VaultEntry) → RevResult
  | [], count, files => ⟨files, count, none⟩
  | e :: rest, count, files =>
    if keyHasPrefix e.Key pfx then
      match revConvertEntry e pfx with
      | none => ⟨files, count + 1, some (.entry (count + 1) .badBase64)⟩
      | some ve => revRun pfx rest (count + 1) (files ++ [(openFileRelPath ve.Key, ve)])
    else revRun pfx rest (count + 1) files

/-- `Converter.ConvertAll` of the prefix-filtering reverse converter. -/
def revConvertAll (pfx : List Char) (entries : List ConsulEntry) : RevResult :=
  revRun pfx entries 0 []

theorem revRun_append (pfx : List Char) (es1 es2 : List ConsulEntry)
    (count : Nat) (files : List (List Char × VaultEntry))
    (hok : (revRun pfx es1 count files).firstErr = none) :
    revRun pfx (es1 ++ es2) count files
      = revRun pfx es2 (revRun pfx es1 count files).count
          (revRun pfx es1 count files).files := by
  induction es1 generalizing count files with
  | nil => simp [revRun]
  | cons e rest ih =>
    rw [List.cons_append]
    by_cases hpfx : keyHasPrefix e.Key pfx
    · rcases hconv : revConvertEntry e pfx with _ | ve
      · rw [revRun, if_pos hpfx, hconv] at hok
        simp at hok
      · have hstep : revRun pfx (e :: rest) count files
            = revRun pfx rest (count + 1) (files ++ [(openFileRelPath ve.Key, ve)]) := by
          rw [revRun, if_pos hpfx, hconv]
        have hstep2 : revRun pfx (e :: (rest ++ es2)) count files
            = revRun pfx (rest ++ es2) (count + 1)
                (files ++ [(openFileRelPath ve.Key, ve)]) := by
          rw [revRun, if_pos hpfx, hconv]
        rw [hstep] at hok
        rw [hstep2, hstep]
        exact ih _ _ hok
    · have hstep : revRun pfx (e :: rest) count files
          = revRun pfx rest (count + 1) files := by
        rw [revRun, if_neg hpfx]
      have hstep2 : revRun pfx (e :: (rest ++ es2)) count files
          = revRun pfx (rest ++ es2) (count + 1) files := by
        rw [revRun, if_neg hpfx]
      rw [hstep] at hok
      rw [hstep2, hstep]
      exact ih _ _ hok

theorem revRun_count (pfx : List Char) (es : List ConsulEntry)
    (count : Nat) (files : List (List Char × VaultEntry))
    (hok : (revRun pfx es count files).firstErr = none) :
    (revRun pfx es count files).count = count + es.length := by
  induction es generalizing count files with
  | nil => simp [revRun]
  | cons e rest ih =>
    by_cases hpfx : keyHasPrefix e.Key pfx
    · rcases hconv : revConvertEntry e pfx with _ | ve
      · rw [revRun, if_pos hpfx, hconv] at hok
        simp at hok
      · rw [revRun, if_pos hpfx, hconv] at hok ⊢
        rw [ih _ _ hok]
        simp
        omega
    · rw [revRun, if_neg hpfx] at hok ⊢
      rw [ih _ _ hok]
      simp
      omega

/-- C3 counterexample: the forward (tree to array) converter applies
`keyAddPrefix` and never filters, so with prefix `vault` the record
`other/x` is not excluded (it comes out as `vault/other/x`), and the
record `vault/secret/x` comes out as `vault/vault/secret/x`, not
`secret/x`. -/
theorem C3_forward_does_not_filter :
    forwardConvert "vault".data [⟨"other/x".data, []⟩]
      = [⟨"vault/other/x".data, []⟩]
    ∧ forwardConvert "vault".data [⟨"vault/secret/x".data, []⟩]
      = [⟨"vault/vault/secret/x".data, []⟩] := by
  constructor <;> rfl

/-- C3 as amended: the namespace filter and the prefix strip live in the
reverse (array to tree) converter: a record whose key lacks the prefix is
skipped entirely (only the counter moves), and with prefix `vault` the
input records `other/x` and `vault/secret/x` produce exactly one output
file, for key `secret/x`. -/
theorem C3_reverse_filters (pfx : List Char) (e : ConsulEntry)
    (rest : List ConsulEntry) (count : Nat)
    (files : List (List Char × VaultEntry))
    (hmiss : keyHasPrefix e.Key pfx = false) :
    revRun pfx (e :: rest) count files = revRun pfx rest (count + 1) files
    ∧ revConvertAll "vault".data
        [⟨"other/x".data, "QQ==".data⟩, ⟨"vault/secret/x".data, "QQ==".data⟩]
      = ⟨[("secret/_x".data, ⟨"secret/x".data, [(65 : Byte)]⟩)], 2, none⟩ := by
  constructor
  · rw [revRun, if_neg (by simp [hmiss])]
  · rfl

theorem C3_reverse_filters_witness :
    revRun "vault".data [⟨"other/x".data, "QQ==".data⟩] 0 []
      = revRun "vault".data [] 1 []
    ∧ revConvertAll "vault".data
        [⟨"other/x".data, "QQ==".data⟩, ⟨"vault/secret/x".data, "QQ==".data⟩]
      = ⟨[("secret/_x".data, ⟨"secret/x".data, [(65 : Byte)]⟩)], 2, none⟩ :=
  C3_reverse_filters "vault".data ⟨"other/x".data, "QQ==".data⟩ [] 0 [] (by decide)

/-- C8 counterexample: in the prefix-filtering reverse converter the
namespace filter runs before the base64 decode, so a record whose key
lacks the prefix is skipped even though its value is not valid base64:
the run reports no error at all. -/
theorem C8_filtered_bad_base64_is_skipped :
    base64DecodeString "!!!".data = none
    ∧ revConvertAll "vault".data [⟨"other/x".data, "!!!".data⟩] = ⟨[], 1, none⟩ := by
  constructor <;> rfl

/-- C8 as amended: if the Nth record's key has the configured prefix, its
value is not valid standard base64, and every earlier record processes
without error, then the run stops with an error naming ordinal N
(1-based) and writes no output file for that entry: the decode failure
happens before the entry's output file would be opened, so the file list
is exactly the one left by the first N-1 records. -/
theorem C8_bad_base64_fails_with_ordinal (pfx : List Char)
    (es1 es2 : List ConsulEntry) (e : ConsulEntry)
    (hok : (revConvertAll pfx es1).firstErr = none)
    (hpfx : keyHasPrefix e.Key pfx = true)
    (hbad : base64DecodeString e.Value = none) :
    revConvertAll pfx (es1 ++ e :: es2)
      = ⟨(revConvertAll pfx es1).files, es1.length + 1,
         some (.entry (es1.length + 1) .badBase64)⟩ := by
  unfold revConvertAll at *
  rw [revRun_append pfx es1 (e :: es2) 0 [] hok]
  rw [revRun, if_pos hpfx]
  rw [revConvertEntry, hbad]
  rw [revRun_count pfx es1 0 [] hok]
  simp

theorem C8_bad_base64_fails_with_ordinal_witness :
    revConvertAll "vault".data
      ([⟨"vault/a".data, "QQ==".data⟩] ++ [⟨"vault/b".data, "!".data⟩])
      = ⟨(revConvertAll "vault".data [⟨"vault/a".data, "QQ==".data⟩]).files, 2,
         some (.entry 2 .badBase64)⟩ :=
  C8_bad_base64_fails_with_ordinal "vault".data
    [⟨"vault/a".data, "QQ==".data⟩] [] ⟨"vault/b".data, "!".data⟩
    (by decide) (by decide) (by decide)

/-- C10: an input record whose key equals the configured prefix passes
the `keyHasPrefix` filter, is stripped to the empty key, and is written
to the file named `_` directly under the output root; no empty-key check
exists on this code path, so the run succeeds. -/
theorem C10_key_equal_prefix_writes_underscore (pfx : List Char) (v : List Byte) :
    keyHasPrefix pfx pfx = true
    ∧ keyStripPrefix pfx pfx = []
    ∧ openFileRelPath [] = ['_']
    ∧ revConvertAll pfx [⟨pfx, base64Encode v⟩] = ⟨[(['_'], ⟨[], v⟩)], 1, none⟩ := by
  refine ⟨keyHasPrefix_self pfx, keyStripPrefix_self pfx, rfl, ?_⟩
  rw [revConvertAll, revRun, if_pos (keyHasPrefix_self pfx)]
  rw [revConvertEntry]
  simp only [base64DecodeString_encode, keyStripPrefix_self]
  rfl

/-! ## Validating reverse converter (no prefix handling)

Embedding of the `Converter.Convert` of the validating
consul-to-filesystem variant: decode the record (Go's JSON unmarshalling
of `physical.Entry.Value []byte` performs the base64 decode), then the
sanity checks `len(entry.Key) == 0` and `len(entry.Value) == 0`, then the
file write; each failure is wrapped as `"entry %d: ..."` with the 1-based
counter. -/

/-- One `Convert` step's conversion and validation, with the 1-based
ordinal it would report. -/
def vrevConvertOne (ordinal : Nat) (e : ConsulEntry) :
    Except ConvError (List Char × VaultEntry) :=
  match base64DecodeString e.Value with
  | none => .error (.entry ordinal .badBase64)
  | some v =>
    if e.Key = [] then .error (.entry ordinal .emptyKey)
    else if v = [] then .error (.entry ordinal .emptyValue)
    else .ok (openFileRelPath e.Key, ⟨e.Key, v⟩)

/-- The `for c.Convert() {}` loop of the validating reverse converter. -/
def vrevRun : List ConsulEntry → Nat → List (List Char × VaultEntry) → RevResult
  | [], count, files => ⟨files, count, none⟩
  | e :: rest, count, files =>
    match vrevConvertOne (count + 1) e with
    | .error err => ⟨files, count + 1, some err⟩
    | .ok w => vrevRun rest (count + 1) (files ++ [w])

/-- `Converter.ConvertAll` of the validating reverse converter. -/
def vrevConvertAll (entries : List ConsulEntry) : RevResult := vrevRun entries 0 []

/-- C9: the validating reverse converter rejects an entry with an empty
key, and an entry with a non-empty key whose decoded value is empty, with
an error naming the entry's 1-based ordinal and without writing a file
for it; the forward converter accepts an empty value and passes it
through as the empty base64 string, its `convertEntry` being total. -/
theorem C9_empty_value_policies :
    (∀ (n : Nat) (e : ConsulEntry) (v : List Byte),
       base64DecodeString e.Value = some v → e.Key = [] →
       vrevConvertOne n e = .error (.entry n .emptyKey))
    ∧ (∀ (n : Nat) (e : ConsulEntry) (v : List Byte),
       base64DecodeString e.Value = some v → e.Key ≠ [] → v = [] →
       vrevConvertOne n e = .error (.entry n .emptyValue))
    ∧ (∀ (e : ConsulEntry) (rest : List ConsulEntry) (count : Nat)
         (files : List (List Char × VaultEntry)) (err : ConvError),
       vrevConvertOne (count + 1) e = .error err →
       vrevRun (e :: rest) count files = ⟨files, count + 1, some err⟩)
    ∧ (∀ (k pfx : List Char),
       fwdConvertEntry ⟨k, []⟩ pfx = ⟨keyAddPrefix k pfx, []⟩) := by
  refine ⟨?_, ?_, ?_, ?_⟩
  · intro n e v hdec hkey
    rw [vrevConvertOne, hdec]
    simp [hkey]
  · intro n e v hdec hkey hval
    rw [vrevConvertOne, hdec]
    simp [hkey, hval]
  · intro e rest count files err hstep
    rw [vrevRun, hstep]
  · intro k pfx
    rfl

theorem C9_empty_value_policies_witness :
    vrevConvertOne 1 ⟨[], "QQ==".data⟩ = .error (.entry 1 .emptyKey)
    ∧ vrevConvertOne 2 ⟨"a".data, []⟩ = .error (.entry 2 .emptyValue)
    ∧ vrevRun [⟨[], "QQ==".data⟩] 0 [] = ⟨[], 1, some (.entry 1 .emptyKey)⟩
    ∧ fwdConvertEntry ⟨"a".data, []⟩ "vault".data
        = ⟨keyAddPrefix "a".data "vault".data, []⟩ :=
  ⟨C9_empty_value_policies.1 1 ⟨[], "QQ==".data⟩ [(65 : Byte)] (by decide) (by decide),
   C9_empty_value_policies.2.1 2 ⟨"a".data, []⟩ [] (by decide) (by decide) (by decide),
   C9_empty_value_policies.2.2.1 ⟨[], "QQ==".data⟩ [] 0 [] (.entry 1 .emptyKey)
     (C9_empty_value_policies.1 1 ⟨[], "QQ==".data⟩ [(65 : Byte)] (by decide) (by decide)),
   C9_empty_value_policies.2.2.2 "a".data "vault".data⟩

/-! ## The streaming JSON array writer (forward direction)

Two embeddings.  `runArrayWriter` is the buffered `consulBackend` of
vault-convert-backend-filesystem-consul: `writeHeader` buffers the
opening delimiter, `WriteEntry` flushes the buffer and then buffers one
indented record object followed by the `",\n"` separator, and `Close`
runs `writeTrailer` (drop the last two buffered bytes, append `"\n]\n"`)
then flushes and closes the file.  `runArrayWriterB` is the framing of
the other forward `Converter.Convert`: `"[\n\t"` before the first record,
`",\n\t"` before later ones, and `"\n]\n"` on exhaustion.  Both are
parameterized by the serialized record objects. -/

/-- The buffered writer's state: bytes already in the output file, and
the pending `bytes.Buffer`. -/
structure WriterState where
  file : List Char
  buffer : List Char
deriving DecidableEq, Repr

/-- `consulBackend.flush`. -/
def wflush (s : WriterState) : WriterState := ⟨s.file ++ s.buffer, []⟩

/-- `consulBackend.writeHeader`. -/
def writeHeader (s : WriterState) : WriterState :=
  { s with buffer := s.buffer ++ "[\n".data }

/-- `consulBackend.WriteEntry`, given the record's serialized object. -/
def writeEntry (s : WriterState) (obj : List Char) : WriterState :=
  let s := wflush s
  { s with buffer := s.buffer ++ '\t' :: obj ++ ",\n".data }

/-- `consulBackend.writeTrailer`: truncate the last two buffered bytes
(intended to be the trailing `",\n"` separator) and buffer `"\n]\n"`. -/
def writeTrailer (s : WriterState) : WriterState :=
  { s with buffer :=
      (if s.buffer.length ≥ 2 then s.buffer.take (s.buffer.length - 2) else s.buffer)
        ++ "\n]\n".data }

/-- `consulBackend.Close`: trailer, then flush. -/
def closeWriter (s : WriterState) : WriterState := wflush (writeTrailer s)

/-- A whole forward run through the buffered writer: open, write each
record, close.  The result is the output file's content. -/
def runArrayWriter (objs : List (List Char)) : List Char :=
  (closeWriter (objs.foldl writeEntry (writeHeader ⟨[], []⟩))).file

/-- The record sequence framing of the other forward converter's
`Convert`: header `"[\n\t"` when the counter is at its first record,
separator `",\n\t"` otherwise. -/
def writerBBody (count : Nat) : List (List Char) → List Char
  | [] => []
  | obj :: rest =>
    (if count = 0 then "[\n\t".data else ",\n\t".data) ++ obj
      ++ writerBBody (count + 1) rest

/-- A whole forward run of the other converter: records then the
`"\n]\n"` trailer written at walker exhaustion. -/
def runArrayWriterB (objs : List (List Char)) : List Char :=
  writerBBody 0 objs ++ "\n]\n".data

/-- C2, failing input: a run over zero records.  Both forward writers
emit exactly `"\n]\n"`: the buffered writer's `writeTrailer` truncates
the still-buffered `"[\n"` header as though it were a record separator,
and the other converter never writes its header at all.  The output does
not begin with the array-open delimiter, so it is not a well-formed JSON
array, contradicting the claim for zero-record runs. -/
theorem C2_zero_record_run_brackets :
    runArrayWriter [] = "\n]\n".data
    ∧ runArrayWriterB [] = "\n]\n".data
    ∧ "\n]\n".data.head? = some '\n'
    ∧ ('\n' = '[') = False := by
  refine ⟨rfl, rfl, rfl, by simp⟩

/-! ## The Tree Walker's Next, after the background walk has terminated

`Walker.Next` (and `filesystemWalker.Next`) receive from the results
channel; a buffered element arrives with `ok = true` and no error, and
once the closed channel drains, every receive yields the zero value with
`ok = false`, at which point the stored walk error is returned.  The
state below is the walker after its producing goroutine stored `err` and
closed the channel with the queue still holding the entries produced
before the failure. -/

/-- Post-termination walker state: buffered results and the stored error. -/
structure WalkerState where
  queue : List (List Char)
  err : Option (List Char)
deriving DecidableEq, Repr

/-- One `Next` call: a buffered result, or the stored error on the
drained, closed channel. -/
def walkerNext (s : WalkerState) :
    (Option (List Char) × Option (List Char)) × WalkerState :=
  match s.queue with
  | r :: rest => ((some r, none), ⟨rest, s.err⟩)
  | [] => ((none, s.err), s)

/-- The walker state after `n` calls to `Next`. -/
def walkerStepN : Nat → WalkerState → WalkerState
  | 0, s => s
  | n + 1, s => walkerStepN n (walkerNext s).2

/-- The result of the `(n+1)`-th `Next` call. -/
def walkerOutputAt (n : Nat) (s : WalkerState) :
    Option (List Char) × Option (List Char) :=
  (walkerNext (walkerStepN n s)).1

/-- C6 counterexample: after the queue drains, the stored error is
returned by the first `Next` call and again by every later one, so it is
not returned exactly once. -/
theorem C6_error_returned_repeatedly :
    walkerOutputAt 0 ⟨[], some "boom".data⟩ = (none, some "boom".data)
    ∧ walkerOutputAt 1 ⟨[], some "boom".data⟩ = (none, some "boom".data) :=
  ⟨rfl, rfl⟩

/-- C6 as amended: every entry buffered before the failure is returned,
in order and without an error, before any error is reported, and from the
first call after the queue drains onward every call returns the stored
error (not exactly once). -/
theorem C6_entries_before_error (es : List (List Char)) (emsg : List Char)
    (i : Nat) :
    walkerOutputAt i ⟨es, some emsg⟩
      = (es[i]?, if i < es.length then none else some emsg) := by
  induction i generalizing es with
  | zero =>
    cases es with
    | nil => rfl
    | cons r rest => simp [walkerOutputAt, walkerStepN, walkerNext]
  | succ n ih =>
    cases es with
    | nil =>
      have h : walkerOutputAt (n + 1) (⟨[], some emsg⟩ : WalkerState)
          = walkerOutputAt n ⟨[], some emsg⟩ := rfl
      rw [h, ih]
      simp
    | cons r rest =>
      have h : walkerOutputAt (n + 1) (⟨r :: rest, some emsg⟩ : WalkerState)
          = walkerOutputAt n ⟨rest, some emsg⟩ := rfl
      rw [h, ih]
      simp

/-! ## First-error-wins and teardown

`Converter.setErr` keeps only the first recorded error.  The `convert`
function of vault-convert-backend-filesystem-consul uses a named return
error and two deferred closes; deferred functions run in reverse
registration order, so the Consul sink closes before the filesystem
source, and a close error is recorded only when the slot is still nil. -/

/-- An abstract run error (its message). -/
abbrev RunError := List Char

/-- Go `Converter.setErr` / `setError`: record only into an empty slot. -/
def setErr (slot : Option RunError) (err : RunError) : Option RunError :=
  match slot with
  | none => some err
  | some _ => slot

/-- The deferred close pattern
`if closeError := x.Close(); closeError != nil && err == nil { err = closeError }`. -/
def deferClose (err : Option RunError) (closeErr : Option RunError) : Option RunError :=
  match closeErr, err with
  | some ce, none => some ce
  | _, _ => err

/-- The two resources the forward `convert` owns. -/
inductive Resource where
  | fb
  | cb
deriving DecidableEq, Repr

/-- The forward `convert` run: open the source, open the sink, run the
body, then the deferred closes (sink first).  Inputs are the error
outcomes of each step; the result is the reported error and the list of
resources whose `Close` ran, in execution order. -/
def convertRun (fbOpenErr cbOpenErr bodyErr cbCloseErr fbCloseErr : Option RunError) :
    Option RunError × List Resource :=
  match fbOpenErr with
  | some e => (some e, [])
  | none =>
    match cbOpenErr with
    | some e => (deferClose (some e) fbCloseErr, [.fb])
    | none => (deferClose (deferClose bodyErr cbCloseErr) fbCloseErr, [.cb, .fb])

/-- The first non-nil error of a sequence of error outcomes. -/
def firstSome (l : List (Option RunError)) : Option RunError :=
  (l.filterMap id).head?

theorem foldl_setErr_some (e : RunError) (errs : List RunError) :
    errs.foldl setErr (some e) = some e := by
  induction errs with
  | nil => rfl
  | cons x xs ih => simpa [setErr] using ih

/-- C7: folding `setErr` over the errors reported during a run keeps
exactly the first one; the forward `convert`'s reported error is the
first non-nil among the body error and the two close errors in execution
order, with both closes always attempted; and an open failure of the
second resource still closes the first while reporting the open error. -/
theorem C7_first_error_wins :
    (∀ errs : List RunError, errs.foldl setErr none = errs.head?)
    ∧ (∀ b c f : Option RunError,
        convertRun none none b c f = (firstSome [b, c, f], [.cb, .fb]))
    ∧ (∀ (co : RunError) (b c f : Option RunError),
        convertRun none (some co) b c f = (some co, [.fb])) := by
  refine ⟨?_, ?_, ?_⟩
  · intro errs
    cases errs with
    | nil => rfl
    | cons e rest => simpa [setErr] using foldl_setErr_some e rest
  · intro b c f
    rcases b with _ | b <;> rcases c with _ | c <;> rcases f with _ | f <;>
      simp [convertRun, deferClose, firstSome]
  · intro co b c f
    rcases f with _ | f <;> simp [convertRun, deferClose]

/-! ## The Tree Walker

Embedding of `filesystemWalker.walk` of
vault-convert-backend-filesystem-consul: list a directory (the file
backend reports a subdirectory's name with a trailing slash), sort the
names with `sort.Strings` (byte order; on valid UTF-8 this coincides with
code-point order, modelled through `Char.toNat`), then iterate in sorted
order, recursing into subdirectories and sending file keys.  The walk's
output order is the channel order, so it is also the order the forward
converter processes records in. -/

/-- Byte-wise lexicographic string comparison, the order `sort.Strings`
establishes. -/
def lexLe : List Char → List Char → Bool
  | [], _ => true
  | _ :: _, [] => false
  | a :: as, b :: bs =>
    if a.toNat < b.toNat then true
    else if a.toNat = b.toNat then lexLe as bs
    else false

theorem char_toNat_inj {a b : Char} (h : a.toNat = b.toNat) : a = b :=
  Char.ext (UInt32.ext h)

theorem lexLe_refl (a : List Char) : lexLe a a = true := by
  induction a with
  | nil => rfl
  | cons x xs ih => simp [lexLe, ih]

theorem lexLe_trans {a b c : List Char} (hab : lexLe a b = true)
    (hbc : lexLe b c = true) : lexLe a c = true := by
  induction a generalizing b c with
  | nil => rfl
  | cons x xs ih =>
    cases b with
    | nil => simp [lexLe] at hab
    | cons y ys =>
      cases c with
      | nil => simp [lexLe] at hbc
      | cons z zs =>
        simp only [lexLe] at hab hbc ⊢
        split at hab
        · rename_i hxy
          split at hbc
          · rename_i hyz
            rw [if_pos (by omega)]
          · split at hbc
            · rename_i hyz
              rw [if_pos (by omega)]
            · simp at hbc
        · split at hab
          · rename_i hxy hxy2
            split at hbc
            · rename_i hyz
              rw [if_pos (by omega)]
            · split at hbc
              · rename_i hyz
                rw [if_neg (by omega), if_pos (by omega)]
                exact ih hab hbc
              · simp at hbc
          · simp at hab

theorem lexLe_total (a b : List Char) : lexLe a b = true ∨ lexLe b a = true := by
  induction a generalizing b with
  | nil => left; rfl
  | cons x xs ih =>
    cases b with
    | nil => right; rfl
    | cons y ys =>
      simp only [lexLe]
      rcases Nat.lt_trichotomy x.toNat y.toNat with h | h | h
      · left
        rw [if_pos h]
      · rcases ih ys with h2 | h2
        · left
          rw [if_neg (by omega), if_pos h, h2]
        · right
          rw [if_neg (by omega), if_pos h.symm, h2]
      · right
        rw [if_pos h]

theorem lexLe_append_right (a b : List Char) : lexLe a (a ++ b) = true := by
  induction a with
  | nil => rfl
  | cons x xs ih => simp [lexLe, ih]

theorem lexLe_prepend (p : List Char) {a b : List Char} (h : lexLe a b = true) :
    lexLe (p ++ a) (p ++ b) = true := by
  induction p with
  | nil => simpa using h
  | cons x xs ih => simp [lexLe, ih]

theorem lexLe_of_prefix {s t : List Char} (h : s <+: t) (r : List Char) :
    lexLe s (t ++ r) = true := by
  obtain ⟨m, hm⟩ := h
  subst hm
  rw [List.append_assoc]
  exact lexLe_append_right s (m ++ r)

theorem lexLe_append_of_not_prefix {s t : List Char} (r1 r2 : List Char)
    (hle : lexLe s t = true) (hne : s ≠ t) (hnp : ¬ s <+: t) :
    lexLe (s ++ r1) (t ++ r2) = true := by
  induction s generalizing t with
  | nil => exact absurd (List.nil_prefix) hnp
  | cons a as ih =>
    cases t with
    | nil => simp [lexLe] at hle
    | cons b bs =>
      simp only [lexLe] at hle
      simp only [List.cons_append, lexLe]
      split at hle
      · rename_i hab
        rw [if_pos hab]
      · split at hle
        · rename_i hab1 hab2
          have hab : a = b := char_toNat_inj hab2
          subst hab
          rw [if_neg hab1, if_pos rfl]
          refine ih hle ?_ ?_
          · intro hcontra
            exact hne (by rw [hcontra])
          · intro hcontra
            exact hnp (List.cons_prefix_cons.mpr ⟨rfl, hcontra⟩)
        · simp at hle

/-- A node of the filesystem backend's logical tree: a leaf record or a
subdirectory. -/
inductive FsNode where
  | file (name : List Char) (value : List Byte)
  | dir (name : List Char) (children : List FsNode)

/-- The name `vault.Backend.List` reports for a node: subdirectories
carry a trailing slash. -/
def listedName : FsNode → List Char
  | .file n _ => n
  | .dir n _ => n ++ ['/']

/-- Ordered insertion by listed name.  `sort.Strings` sorts the listed
names; on listings with distinct names (every real directory) the sorted
sequence is unique, so this insertion sort is the same reordering. -/
def insertNode (x : FsNode) : List FsNode → List FsNode
  | [] => [x]
  | y :: ys =>
    if lexLe (listedName x) (listedName y) then x :: y :: ys
    else y :: insertNode x ys

/-- The sorted directory listing. -/
def sortNodes : List FsNode → List FsNode
  | [] => []
  | x :: xs => insertNode x (sortNodes xs)

theorem insertNode_perm (x : FsNode) (l : List FsNode) :
    List.Perm (insertNode x l) (x :: l) := by
  induction l with
  | nil => rfl
  | cons y ys ih =>
    rw [insertNode]
    split
    · rfl
    · exact (ih.cons y).trans (List.Perm.swap x y ys)

theorem sortNodes_perm (l : List FsNode) : List.Perm (sortNodes l) l := by
  induction l with
  | nil => rfl
  | cons x xs ih => exact (insertNode_perm x (sortNodes xs)).trans (ih.cons x)

/-- The node order underlying the sorted listing. -/
def nodeLeB (a b : FsNode) : Prop := lexLe (listedName a) (listedName b) = true

theorem pairwise_insertNode {x : FsNode} {l : List FsNode}
    (h : List.Pairwise nodeLeB l) : List.Pairwise nodeLeB (insertNode x l) := by
  induction l with
  | nil => simp [insertNode, List.Pairwise]
  | cons y ys ih =>
    rw [insertNode]
    rcases h with _ | ⟨hy, hys⟩
    split
    · rename_i hxy
      refine List.Pairwise.cons ?_ (List.Pairwise.cons hy hys)
      intro z hz
      rcases List.mem_cons.mp hz with h1 | h1
      · exact h1 ▸ hxy
      · exact lexLe_trans hxy (hy z h1)
    · rename_i hxy
      refine List.Pairwise.cons ?_ (ih hys)
      intro z hz
      rcases List.mem_cons.mp ((insertNode_perm x ys).mem_iff.mp hz) with h1 | h1
      · subst h1
        rcases lexLe_total (listedName z) (listedName y) with h2 | h2
        · exact absurd h2 hxy
        · exact h2
      · exact hy z h1

theorem pairwise_sortNodes (l : List FsNode) :
    List.Pairwise nodeLeB (sortNodes l) := by
  induction l with
  | nil => simp [sortNodes]
  | cons x xs ih => exact pairwise_insertNode ih

/-- Go `path.Join(prefix, name)` for a clean, slash-free `name`: the
empty prefix leaves the name alone. -/
def joinKey (pre name : List Char) : List Char :=
  if pre = [] then name else pre ++ '/' :: name

/-- Go `filesystemWalker.walk`: at a subdirectory, list, sort, then emit
file keys and recurse into subdirectories in sorted order (depth-first,
channel order). -/
def walkNode (pre : List Char) (n : FsNode) : List (List Char) :=
  match n with
  | .file name _ => [joinKey pre name]
  | .dir name children =>
    ((sortNodes children).attach.map
      (fun c => walkNode (joinKey pre name) c.1)).flatten
termination_by sizeOf n
decreasing_by
  simp only [FsNode.dir.sizeOf_spec]
  have h1 := List.sizeOf_lt_of_mem ((sortNodes_perm _).mem_iff.mp c.2)
  omega

/-- The walk from the backend root, `walk(ctx, "")`: the keys sent to the
channel, in order. -/
def walkRoot (children : List FsNode) : List (List Char) :=
  ((sortNodes children).map (walkNode [])).flatten

/-- A valid path segment: non-empty and slash-free. -/
def validName (n : List Char) : Bool :=
  !n.isEmpty && n.all (fun c => c != '/')

/-- Well-formedness of a tree node: valid names throughout, and distinct
listed names among any directory's children (as on a real filesystem). -/
def wfNode : FsNode → Bool
  | .file name _ => validName name
  | .dir name children =>
    validName name && decide ((children.map listedName).Nodup)
      && children.attach.all (fun c => wfNode c.1)
termination_by n => sizeOf n
decreasing_by
  simp only [FsNode.dir.sizeOf_spec]
  have h1 := List.sizeOf_lt_of_mem c.2
  omega

/-- Well-formedness of the root listing. -/
def wfForest (children : List FsNode) : Bool :=
  decide ((children.map listedName).Nodup) && children.all wfNode

/-- The tree holding exactly the keys `a/1`, `a/2`, `b/1`, listed out of
order to exercise the sort. -/
def exampleTree : List FsNode :=
  [.dir "b".data [.file "1".data []],
   .dir "a".data [.file "2".data [], .file "1".data []]]

theorem validName_spec {n : List Char} (h : validName n = true) :
    n ≠ [] ∧ '/' ∉ n := by
  rw [validName] at h
  simp only [Bool.and_eq_true, List.all_eq_true, bne_iff_ne, ne_eq] at h
  obtain ⟨h1, h2⟩ := h
  refine ⟨?_, fun hm => h2 '/' hm rfl⟩
  intro hn
  subst hn
  simp at h1

theorem wfNode_dir {name : List Char} {cs : List FsNode}
    (h : wfNode (.dir name cs) = true) :
    validName name = true ∧ (cs.map listedName).Nodup
      ∧ ∀ c ∈ cs, wfNode c = true := by
  simp only [wfNode, Bool.and_eq_true, decide_eq_true_eq, List.all_eq_true] at h
  obtain ⟨⟨h1, h2⟩, h3⟩ := h
  exact ⟨h1, h2, fun c hc => h3 ⟨c, hc⟩ (List.mem_attach _ _)⟩

theorem walkNode_file (pre name : List Char) (v : List Byte) :
    walkNode pre (.file name v) = [joinKey pre name] := by
  simp [walkNode]

theorem walkNode_dir_eq (pre name : List Char) (cs : List FsNode) :
    walkNode pre (.dir name cs)
      = ((sortNodes cs).map (walkNode (joinKey pre name))).flatten := by
  simp only [walkNode]
  rw [List.attach_map_val]

theorem joinKey_nil (name : List Char) : joinKey [] name = name := rfl

theorem joinKey_assoc {name : List Char} (pre k : List Char) (hname : name ≠ []) :
    joinKey pre (joinKey name k) = joinKey (joinKey pre name) k := by
  by_cases hpre : pre = []
  · subst hpre
    simp [joinKey]
  · have h1 : joinKey pre name ≠ [] := by simp [joinKey, hpre]
    simp [joinKey, hpre, hname, h1]

theorem walkNode_map_joinKey (pre : List Char) (n : FsNode)
    (hwf : wfNode n = true) :
    walkNode pre n = (walkNode [] n).map (joinKey pre) := by
  match n with
  | .file name v =>
    simp [walkNode_file, joinKey_nil]
  | .dir name cs =>
    obtain ⟨hv, hnd, hcs⟩ := wfNode_dir hwf
    have hname := (validName_spec hv).1
    rw [walkNode_dir_eq, walkNode_dir_eq, joinKey_nil]
    rw [List.map_flatten, List.map_map]
    congr 1
    apply List.map_congr_left
    intro c hc
    have hcwf : wfNode c = true := hcs c ((sortNodes_perm cs).mem_iff.mp hc)
    simp only [Function.comp_apply]
    rw [walkNode_map_joinKey (joinKey pre name) c hcwf,
        walkNode_map_joinKey name c hcwf, List.map_map]
    apply List.map_congr_left
    intro k hk
    simp only [Function.comp_apply]
    exact (joinKey_assoc pre k hname).symm
termination_by sizeOf n
decreasing_by
  all_goals
    simp only [FsNode.dir.sizeOf_spec]
    have h1 := List.sizeOf_lt_of_mem ((sortNodes_perm cs).mem_iff.mp hc)
    omega

theorem walkNode_key_shape {n : FsNode} (hwf : wfNode n = true) {k : List Char}
    (hk : k ∈ walkNode [] n) :
    ∃ r, k = listedName n ++ r
      ∧ (∀ name v, n = FsNode.file name v → r = []) := by
  match n with
  | .file name v =>
    rw [walkNode_file, joinKey_nil] at hk
    simp only [List.mem_singleton] at hk
    subst hk
    exact ⟨[], by simp [listedName], fun _ _ _ => rfl⟩
  | .dir name cs =>
    obtain ⟨hv, hnd, hcs⟩ := wfNode_dir hwf
    have hname := (validName_spec hv).1
    rw [walkNode_dir_eq, joinKey_nil, List.mem_flatten] at hk
    obtain ⟨l, hl, hkl⟩ := hk
    rw [List.mem_map] at hl
    obtain ⟨c, hc, rfl⟩ := hl
    have hcwf := hcs c ((sortNodes_perm cs).mem_iff.mp hc)
    rw [walkNode_map_joinKey name c hcwf, List.mem_map] at hkl
    obtain ⟨k0, hk0, rfl⟩ := hkl
    refine ⟨k0, ?_, fun _ _ h => FsNode.noConfusion h⟩
    simp [joinKey, hname, listedName]

theorem walk_key_cross {c1 c2 : FsNode} (h1 : wfNode c1 = true)
    (h2 : wfNode c2 = true)
    (hle : lexLe (listedName c1) (listedName c2) = true)
    (hne : listedName c1 ≠ listedName c2)
    {k1 k2 : List Char} (hk1 : k1 ∈ walkNode [] c1) (hk2 : k2 ∈ walkNode [] c2) :
    lexLe k1 k2 = true := by
  obtain ⟨r1, hr1, hfile1⟩ := walkNode_key_shape h1 hk1
  obtain ⟨r2, hr2, _⟩ := walkNode_key_shape h2 hk2
  subst hr1
  subst hr2
  by_cases hp : listedName c1 <+: listedName c2
  · cases c1 with
    | file name v =>
      have hr1nil : r1 = [] := hfile1 name v rfl
      subst hr1nil
      simp only [List.append_nil]
      exact lexLe_of_prefix hp r2
    | dir name cs =>
      exfalso
      obtain ⟨m, hm⟩ := hp
      have hmne : m ≠ [] := by
        intro h0
        subst h0
        rw [List.append_nil] at hm
        exact hne hm
      have hname := (validName_spec (wfNode_dir h1).1).2
      cases c2 with
      | file name2 v2 =>
        have hname2 : '/' ∉ name2 := by
          have hv2 : validName name2 = true := by
            simpa [wfNode] using h2
          exact (validName_spec hv2).2
        apply hname2
        have hmem : '/' ∈ listedName (FsNode.file name2 v2) := by
          rw [← hm]
          simp [listedName]
        simpa [listedName] using hmem
      | dir name2 cs2 =>
        have hname2 : '/' ∉ name2 := (validName_spec (wfNode_dir h2).1).2
        simp only [listedName] at hm
        have hcount : List.count '/' m = 0 := by
          have hc1 : List.count '/' (name ++ ['/'] ++ m)
              = List.count '/' (name2 ++ ['/']) := by rw [hm]
          rw [List.count_append, List.count_append, List.count_append] at hc1
          have hz1 : List.count '/' name = 0 := List.count_eq_zero.mpr hname
          have hz2 : List.count '/' name2 = 0 := List.count_eq_zero.mpr hname2
          simp [hz1, hz2] at hc1
          exact hc1
        have hlast : m.getLast? = some '/' := by
          have hg : (name ++ ['/'] ++ m).getLast? = (name2 ++ ['/']).getLast? := by
            rw [hm]
          rw [List.getLast?_concat] at hg
          rw [List.getLast?_append] at hg
          rcases hml : m.getLast? with _ | z
          · exact absurd (List.getLast?_eq_none_iff.mp hml) hmne
          · rw [hml] at hg
            simp only [Option.or_some] at hg
            exact hg
        have hmem : '/' ∈ m := List.mem_of_mem_getLast? hlast
        have hpos := List.count_pos_iff.mpr hmem
        omega
  · exact lexLe_append_of_not_prefix r1 r2 hle hne hp

theorem flatten_walk_pairwise (ns : List FsNode)
    (hwf : ∀ c ∈ ns, wfNode c = true)
    (hnd : (ns.map listedName).Nodup)
    (hsorted : List.Pairwise nodeLeB ns)
    (hinner : ∀ c ∈ ns, List.Pairwise (fun a b => lexLe a b = true) (walkNode [] c)) :
    List.Pairwise (fun a b => lexLe a b = true) ((ns.map (walkNode [])).flatten) := by
  rw [List.pairwise_flatten]
  constructor
  · intro l hl
    rw [List.mem_map] at hl
    obtain ⟨c, hc, rfl⟩ := hl
    exact hinner c hc
  · rw [List.pairwise_map]
    have hnd2 : List.Pairwise (fun a b => listedName a ≠ listedName b) ns :=
      List.pairwise_map.mp hnd
    have hcomb := hsorted.and hnd2
    refine List.Pairwise.imp_of_mem ?_ hcomb
    intro a b ha hb hab x hx y hy
    exact walk_key_cross (hwf a ha) (hwf b hb) hab.1 hab.2 hx hy

theorem walkNode_sorted (n : FsNode) (hwf : wfNode n = true) :
    List.Pairwise (fun a b => lexLe a b = true) (walkNode [] n) := by
  match n with
  | .file name v =>
    rw [walkNode_file]
    exact List.pairwise_singleton _ _
  | .dir name cs =>
    obtain ⟨hv, hnd, hcs⟩ := wfNode_dir hwf
    have hname := (validName_spec hv).1
    rw [walkNode_dir_eq, joinKey_nil]
    have heq : ((sortNodes cs).map (walkNode name)).flatten
        = (((sortNodes cs).map (walkNode [])).flatten).map (joinKey name) := by
      rw [List.map_flatten, List.map_map]
      congr 1
      apply List.map_congr_left
      intro c hc
      simp only [Function.comp_apply]
      exact walkNode_map_joinKey name c (hcs c ((sortNodes_perm cs).mem_iff.mp hc))
    rw [heq, List.pairwise_map]
    have hpair := flatten_walk_pairwise (sortNodes cs)
      (fun c hc => hcs c ((sortNodes_perm cs).mem_iff.mp hc))
      (((sortNodes_perm cs).map listedName).nodup_iff.mpr hnd)
      (pairwise_sortNodes cs)
      (fun c hc => walkNode_sorted c (hcs c ((sortNodes_perm cs).mem_iff.mp hc)))
    refine hpair.imp ?_
    intro a b hab
    simp only [joinKey, if_neg hname]
    have hstep := lexLe_prepend (name ++ ['/']) hab
    simpa using hstep
termination_by sizeOf n
decreasing_by
  simp only [FsNode.dir.sizeOf_spec]
  have h1 := List.sizeOf_lt_of_mem ((sortNodes_perm cs).mem_iff.mp hc)
  omega

theorem walkRoot_sorted (children : List FsNode) (h : wfForest children = true) :
    List.Pairwise (fun a b => lexLe a b = true) (walkRoot children) := by
  rw [wfForest] at h
  simp only [Bool.and_eq_true, decide_eq_true_eq, List.all_eq_true] at h
  obtain ⟨hnd, hwf⟩ := h
  rw [walkRoot]
  refine flatten_walk_pairwise (sortNodes children) ?_ ?_ ?_ ?_
  · intro c hc
    exact hwf c ((sortNodes_perm children).mem_iff.mp hc)
  · exact ((sortNodes_perm children).map listedName).nodup_iff.mpr hnd
  · exact pairwise_sortNodes children
  · intro c hc
    exact walkNode_sorted c (hwf c ((sortNodes_perm children).mem_iff.mp hc))

/-- C5: the walk of the tree holding exactly the keys `a/1`, `a/2`, `b/1`
yields them in that order, the forward converter preserves that order in
the emitted record sequence, and in general the tree walk over any
well-formed tree yields keys in byte-lexicographically sorted order
(sorted at each directory level, descended depth-first). -/
theorem C5_walk_order :
    walkRoot exampleTree = ["a/1".data, "a/2".data, "b/1".data]
    ∧ (∀ children : List FsNode, wfForest children = true →
        List.Pairwise (fun a b => lexLe a b = true) (walkRoot children))
    ∧ forwardConvert "vault".data
        [⟨"a/1".data, []⟩, ⟨"a/2".data, []⟩, ⟨"b/1".data, []⟩]
      = [⟨"vault/a/1".data, []⟩, ⟨"vault/a/2".data, []⟩,
         ⟨"vault/b/1".data, []⟩] := by
  refine ⟨?_, walkRoot_sorted, ?_⟩
  · simp [walkRoot, exampleTree, sortNodes, insertNode, listedName, walkNode,
      joinKey, lexLe]
  · rfl

theorem C5_walk_order_witness :
    List.Pairwise (fun a b => lexLe a b = true) (walkRoot exampleTree) :=
  C5_walk_order.2.1 exampleTree
    (by simp [wfForest, exampleTree, wfNode, validName, listedName])
